import Mathlib

/-!
# Verification of the miniclaw execution core

Shallow embedding of the miniclaw repository's execution pipeline
(`executor.go`, `ollama.go`, the Telegram handler file) together with
theorems settling the specification's claims about it.

Modelling conventions:
* Go byte strings whose byte length matters (command output) are `List Nat`
  (one entry per byte); Go `len` is `List.length`.
* Filesystem paths are lists of components (`List (List Char)`), the
  workspace root being an already-clean absolute path.  `filepath.Join`
  followed by Go's lexical `Clean` is `goJoin`; `filepath.Base` is `goBase`.
* The operating system's contribution to a `Run` call (what the process
  wrote, whether the deadline expired, how the process ended) is an input
  (`RawOutcome`); the embedded function is the post-processing the Go code
  performs on it.
* Exit statuses of processes that ran are natural numbers (the 0–255 exit
  codes); a process that could not be started is `SpawnStatus.startFailure`.
-/

set_option autoImplicit false

namespace Miniclaw

/-! ## Path model (`path/filepath` as used by `executor.go`)

A path is a list of components.  The workspace root is taken to be an
absolute, already-clean path, so `filepath.Join(workspace, name)` is:
split `name` on `'/'`, drop empty components, then process `"."` and
`".."` lexically against the workspace used as the initial stack —
exactly Go's `Clean` on the concatenation. -/

/-- One path component. -/
abbrev PathSeg := List Char

/-- An absolute path, as its list of components below the filesystem root. -/
abbrev AbsPath := List PathSeg

/-- `strings.Split(s, "/")`: split a character list at `'/'`,
keeping empty segments (so that e.g. `"/b"` splits to `["", "b"]`). -/
def splitOnSlash : List Char → List (List Char)
  | [] => [[]]
  | c :: rest =>
    if c == '/' then [] :: splitOnSlash rest
    else (c :: (splitOnSlash rest).headD []) :: (splitOnSlash rest).tail

/-- The non-empty components of a path string. -/
def pathComps (s : List Char) : List (List Char) :=
  (splitOnSlash s).filter (fun seg => !seg.isEmpty)

/-- Go `filepath.Clean` on an absolute path, component by component:
`"."` is dropped, `".."` pops the stack (a no-op at the root), anything
else is pushed.  `stack` holds the components processed so far, reversed. -/
def cleanInto (stack : AbsPath) : List (List Char) → AbsPath
  | [] => stack.reverse
  | seg :: rest =>
    if seg == ['.'] then cleanInto stack rest
    else if seg == ['.', '.'] then cleanInto stack.tail rest
    else cleanInto (seg :: stack) rest

/-- Go `filepath.Join(workspace, name)` (join then `Clean`), for an
absolute, already-clean workspace. -/
def goJoin (ws : AbsPath) (name : List Char) : AbsPath :=
  cleanInto ws.reverse (pathComps name)

/-- Go `filepath.Base`: the last element of the path after trailing
separators are removed; `"."` for the empty path, `"/"` when the path is
all separators.  (`Base` does not clean: `Base("a/..") = ".."`.) -/
def goBase (name : List Char) : List Char :=
  ((pathComps name).getLast?).getD (if name.isEmpty then ['.'] else ['/'])

/-! ## Executor (`executor.go`)

`Run` spawns `bash -c command`; the command's observable behaviour is the
`RawOutcome` input.  The embedded function is the post-processing in
`Executor.Run` lines 56–86: the deadline check, the error/exit-code
handling and the output truncation, in that order. -/

/-- How `cmd.Run()` reported the process's end:
`ok` (nil error, exit status 0); `exited c` (an `*exec.ExitError` whose
`ExitCode()` is a real 0–255 exit status); `signaled` (an
`*exec.ExitError` whose `ExitCode()` is `-1` because the process was
terminated by a signal without having exited — possible with no
deadline expiry, e.g. an external kill); or `startFailure` (any other
error: the process could not be started). -/
inductive SpawnStatus where
  | ok : SpawnStatus
  | exited : Nat → SpawnStatus
  | signaled : SpawnStatus
  | startFailure : SpawnStatus
  deriving DecidableEq, Repr

/-- Everything the operating system contributed to one `Run` call:
the bytes captured from the two streams, whether the context deadline
expired (`ctx.Err() == context.DeadlineExceeded`), and the spawn status. -/
structure RawOutcome where
  stdout : List Nat
  stderr : List Nat
  timedOut : Bool
  status : SpawnStatus
  deriving DecidableEq, Repr

/-- `ExecResult` of `executor.go` (the `Duration` field, pure telemetry,
is omitted).  `exitCode` is an integer because the timeout sentinel is
`-1`. -/
structure ExecResult where
  stdout : List Nat
  stderr : List Nat
  exitCode : Int
  truncated : Bool
  deriving DecidableEq, Repr

/-- The bytes of the truncation marker `"\n... [truncated]"`. -/
def truncMarker : List Nat :=
  [10, 46, 46, 46, 32, 91, 116, 114, 117, 110, 99, 97, 116, 101, 100, 93]

/-- The bytes of `"\n⏱ TIMEOUT: command exceeded "` followed by the
rendered timeout duration (`e.timeout.String()`), which is passed in
as `timeoutStr`. -/
def timeoutNote (timeoutStr : List Nat) : List Nat :=
  [10, 226, 143, 177, 32, 84, 73, 77, 69, 79, 85, 84, 58, 32,
   99, 111, 109, 109, 97, 110, 100, 32, 101, 120, 99, 101, 101, 100, 101, 100, 32]
    ++ timeoutStr

/-- Lines 77–84 of `executor.go`, for one stream: cap at `maxB` bytes,
appending the truncation marker; the Bool reports whether it cut. -/
def capStream (maxB : Nat) (s : List Nat) : List Nat × Bool :=
  if s.length > maxB then (s.take maxB ++ truncMarker, true) else (s, false)

/-- `Executor.Run`, lines 56–86: build the result from the captured
streams; if the deadline expired return it immediately with the sentinel
exit code `-1` and the timeout note appended to stderr (no truncation!);
otherwise surface a start failure as an error (`none`), record
`exitErr.ExitCode()` — the real status for an exited process, `-1` for a
signal-terminated one — and cap both streams. -/
def Run (maxB : Nat) (timeoutStr : List Nat) (o : RawOutcome) : Option ExecResult :=
  if o.timedOut then
    some { stdout := o.stdout, stderr := o.stderr ++ timeoutNote timeoutStr,
           exitCode := -1, truncated := false }
  else
    match o.status with
    | .startFailure => none
    | .ok =>
      let so := capStream maxB o.stdout
      let se := capStream maxB o.stderr
      some { stdout := so.1, stderr := se.1, exitCode := 0, truncated := so.2 || se.2 }
    | .exited c =>
      let so := capStream maxB o.stdout
      let se := capStream maxB o.stderr
      some { stdout := so.1, stderr := se.1, exitCode := (c : Int), truncated := so.2 || se.2 }
    | .signaled =>
      let so := capStream maxB o.stdout
      let se := capStream maxB o.stderr
      some { stdout := so.1, stderr := se.1, exitCode := -1, truncated := so.2 || se.2 }

/-- `Executor.RunScript`, lines 90–97: the path is
`filepath.Join(e.workspace, filename)` — the filename is joined as
given, with no base-name resolution and no rejection of separators or
parent components — and the only error is "script not found" when
`os.Stat` fails.  `present` is the filesystem: which paths exist.
The returned path is the script that will be handed to `Run`. -/
def RunScript (present : AbsPath → Bool) (ws : AbsPath) (filename : List Char) :
    Option AbsPath :=
  let path := goJoin ws filename
  if present path then some path else none

/-- `Executor.SaveFile`, lines 115–125: the filename is reduced to its
base name, joined to the workspace, and written; the only error channel
is the write itself (`writable` is the set of paths `os.WriteFile` would
succeed on).  No path is ever rejected. -/
def SaveFile (writable : AbsPath → Bool) (ws : AbsPath) (filename : List Char) :
    Option AbsPath :=
  let path := goJoin ws (goBase filename)
  if writable path then some path else none

/-- `Executor.ReadFile`, lines 151–153: same base-name resolution. -/
def ReadFilePath (ws : AbsPath) (filename : List Char) : AbsPath :=
  goJoin ws (goBase filename)

/-- `Executor.DeleteFile`, lines 168–171: same base-name resolution. -/
def DeleteFilePath (ws : AbsPath) (filename : List Char) : AbsPath :=
  goJoin ws (goBase filename)

/-! ## Command extraction (`ollama.go`, `ExtractBashCommands`)

The Go code runs `regexp.MustCompile("(?s)```(?:bash|sh)?\n(.*?)```")` with
`FindAllStringSubmatch` (leftmost-first, non-overlapping, lazy capture)
and keeps each captured group after `strings.TrimSpace` when non-empty.
The embedding replays exactly that scan: at each position, a match starts
iff the text begins with three backticks, then `bash`, `sh` or nothing,
then a newline; the capture runs lazily to the next three backticks. -/

/-- The backtick character (U+0060). -/
def tick : Char := Char.ofNat 96

/-- Does the text begin with three backticks? -/
def startsCCC : List Char → Bool
  | c1 :: c2 :: c3 :: _ => c1 == tick && c2 == tick && c3 == tick
  | _ => false

/-- Lazy search for the closing fence: split the text at the first
occurrence of three backticks, returning the part before it and the part
after it (the regex's `(.*?)` followed by the final ````` ``` `````). -/
def findClose : List Char → Option (List Char × List Char)
  | [] => none
  | c :: rest =>
    if startsCCC (c :: rest) then some ([], rest.drop 2)
    else
      match findClose rest with
      | some pr => some (c :: pr.1, pr.2)
      | none => none

/-- The opening fence with the `bash` tag: `"```bash\n"`. -/
def fenceBash : List Char := [tick, tick, tick, 'b', 'a', 's', 'h', '\n']

/-- The opening fence with the `sh` tag: `"```sh\n"`. -/
def fenceSh : List Char := [tick, tick, tick, 's', 'h', '\n']

/-- The opening fence with no tag: `"```\n"` (the regex's tag is optional). -/
def fenceBare : List Char := [tick, tick, tick, '\n']

/-- One match attempt at the current position: the alternation
`(?:bash|sh)?` in its priority order, then the lazy capture. Returns the
captured text and the remainder after the consumed match. -/
def tryMatchAt (s : List Char) : Option (List Char × List Char) :=
  if fenceBash.isPrefixOf s then findClose (s.drop 8)
  else if fenceSh.isPrefixOf s then findClose (s.drop 6)
  else if fenceBare.isPrefixOf s then findClose (s.drop 4)
  else none

/-- `FindAllStringSubmatch`'s scan, with fuel (each step either consumes a
whole match, which is at least four characters long, or advances one
character, so `s.length` fuel always suffices). -/
def scanF : Nat → List Char → List (List Char)
  | 0, _ => []
  | _ + 1, [] => []
  | fuel + 1, c :: rest =>
    match tryMatchAt (c :: rest) with
    | some capAfter => capAfter.1 :: scanF fuel capAfter.2
    | none => scanF fuel rest

/-- All capture groups of the regex over the whole text, in order. -/
def scanText (s : List Char) : List (List Char) := scanF s.length s

/-- `unicode.IsSpace` restricted to the ASCII space characters
(`' '`, `'\t'`, `'\n'`, `'\v'`, `'\f'`, `'\r'`), which is all the
command texts here contain. -/
def isSpaceChar (c : Char) : Bool :=
  c == ' ' || c == '\t' || c == '\n' || c == '\x0b' || c == '\x0c' || c == '\r'

/-- `strings.TrimSpace`. -/
def trimSpace (s : List Char) : List Char :=
  ((s.dropWhile isSpaceChar).reverse.dropWhile isSpaceChar).reverse

/-- `ExtractBashCommands` (`ollama.go` lines 183–196): every capture,
trimmed, with whitespace-only captures discarded, in source order. -/
def ExtractBashCommands (response : List Char) : List (List Char) :=
  ((scanText response).map trimSpace).filter (fun c => !c.isEmpty)

/-! ## Confirmation gate (`handleChat` / `handleConfirm`)

`pendingCmds` is the Go map `map[int64]string` from operator id to the
command text awaiting `/yes`.  It is modelled as a function into
`Option`. -/

/-- The per-operator pending-command store. -/
abbrev Pending := Int → Option (List Char)

/-- `strings.Join(commands, "\n")`. -/
def joinCmds (commands : List (List Char)) : List Char :=
  List.intercalate ['\n'] commands

/-- The state change `handleChat` performs on `pendingCmds`
(lines 357–392 of the handler file): extract the commands from the LLM
response; when at least one was found and auto-execute mode is off, store
their join under the operator's id, overwriting whatever was there;
otherwise leave the store untouched. -/
def handleChat (autoExec : Bool) (pending : Pending) (op : Int)
    (response : List Char) : Pending :=
  if (ExtractBashCommands response).isEmpty then pending
  else if autoExec then pending
  else fun q => if q == op then some (joinCmds (ExtractBashCommands response)) else pending q

/-- `handleConfirm` (lines 394–415), as a state transition plus the
executed outcome: look the operator up; with nothing pending, change
nothing and execute nothing; otherwise delete the entry *first* and then
invoke the executor — the second component is `some result?` where
`result?` is what `Run` returned (`none` inside means spawn failure).
The deleted entry is never restored, whatever `Run` returns. -/
def handleConfirm (pending : Pending) (op : Int) (maxB : Nat)
    (timeoutStr : List Nat) (o : RawOutcome) :
    Pending × Option (List Char × Option ExecResult) :=
  match pending op with
  | none => (pending, none)
  | some cmd =>
    ((fun q => if q == op then none else pending q), some (cmd, Run maxB timeoutStr o))

/-! ## Scheduler (`ollama.go` second part, `Scheduler`)

The job table is the Go map `map[string]*CronJob`, modelled as an
association list keyed by id.  The third-party cron parser
(`robfig/cron`) is external to the repository; its accept/reject verdict
is the parameter `specOK`. -/

/-- `CronJob` (the `EntryID` timer handle, tagged `json:"-"`, is not
persisted state and is omitted; timestamps are abstract instants). -/
structure CronJob where
  id : String
  spec : String
  command : String
  label : String
  created : Nat
  lastRun : Nat
  deriving DecidableEq, Repr

/-- The scheduler's error taxonomy: `fmt.Errorf("job %q already exists")`,
`fmt.Errorf("invalid cron spec %q")`, `fmt.Errorf("job %q not found")`. -/
inductive SchedErr where
  | duplicate : String → SchedErr
  | invalidSpec : String → SchedErr
  | notFound : String → SchedErr
  deriving DecidableEq, Repr

/-- The job table. -/
abbrev JobTable := List (String × CronJob)

/-- `Scheduler.Add` (lines 293–321): reject a duplicate id before
touching anything; then register with the cron runner, whose parse
failure rejects the spec, again changing nothing; on success insert the
job (with zero last-run) and persist.  Returns the error (if any) and
the table afterwards. -/
def SchedulerAdd (specOK : String → Bool) (jobs : JobTable) (now : Nat)
    (id spec command label : String) : Option SchedErr × JobTable :=
  if (jobs.lookup id).isSome then (some (.duplicate id), jobs)
  else if specOK spec then
    (none,
     jobs ++ [(id, { id := id, spec := spec, command := command, label := label,
                     created := now, lastRun := 0 })])
  else (some (.invalidSpec spec), jobs)

/-- `Scheduler.Remove` (lines 324–338): not-found error for an absent id,
otherwise delete the entry and persist. -/
def SchedulerRemove (jobs : JobTable) (id : String) : Option SchedErr × JobTable :=
  if (jobs.lookup id).isSome then (none, jobs.filter (fun p => p.1 != id))
  else (some (.notFound id), jobs)

/-! ## Persistence (`Scheduler.persist` / `Scheduler.load`)

`persist` writes `json.MarshalIndent(s.jobs)`; `load` parses the file and
re-registers each job, skipping those whose spec no longer parses.  The
JSON text is modelled at the level of its structure: a value tree with
the exact field names of the struct tags. -/

/-- A JSON value, as far as this file needs. -/
inductive JVal where
  | jstr : String → JVal
  | jnum : Nat → JVal
  | jobj : List (String × JVal) → JVal

/-- Marshalling one `CronJob` with its struct tags
(`id`, `spec`, `command`, `label`, `created`, `last_run`; `EntryID` is
tagged `json:"-"` and dropped). -/
def encodeJob (j : CronJob) : JVal :=
  .jobj [("id", .jstr j.id), ("spec", .jstr j.spec), ("command", .jstr j.command),
         ("label", .jstr j.label), ("created", .jnum j.created),
         ("last_run", .jnum j.lastRun)]

/-- Unmarshalling a string field (a missing field keeps Go's zero value). -/
def fieldStr (fs : List (String × JVal)) (k : String) : String :=
  match fs.lookup k with
  | some (.jstr s) => s
  | _ => ""

/-- Unmarshalling a numeric field. -/
def fieldNum (fs : List (String × JVal)) (k : String) : Nat :=
  match fs.lookup k with
  | some (.jnum n) => n
  | _ => 0

/-- Unmarshalling one `CronJob`. -/
def decodeJob : JVal → Option CronJob
  | .jobj fs =>
    some { id := fieldStr fs "id", spec := fieldStr fs "spec",
           command := fieldStr fs "command", label := fieldStr fs "label",
           created := fieldNum fs "created", lastRun := fieldNum fs "last_run" }
  | _ => none

/-- `Scheduler.persist` (lines 373–379): the whole table, marshalled. -/
def SchedulerPersist (jobs : JobTable) : JVal :=
  .jobj (jobs.map (fun p => (p.1, encodeJob p.2)))

/-- One step of `Scheduler.load`'s loop: decode the entry, re-register it
with the cron runner — a spec that fails to re-parse is silently
skipped — and key the rebuilt map by the job's own `ID` field. -/
def loadStep (specOK : String → Bool) (acc : JobTable) (p : String × JVal) : JobTable :=
  match decodeJob p.2 with
  | some j => if specOK j.spec then acc ++ [(j.id, j)] else acc
  | none => acc

/-- `Scheduler.load` (lines 381–403). -/
def SchedulerLoad (specOK : String → Bool) (v : JVal) : JobTable :=
  match v with
  | .jobj fs => fs.foldl (loadStep specOK) []
  | _ => []

/-! ## Well-formed responses, for the extraction theorems

A response built from backtick-free text pieces and well-formed fenced
blocks, each block carrying one of the tags the extractor accepts. -/

/-- The two shell tags and the untagged form the regex also accepts. -/
inductive Fence where
  | bash : Fence
  | sh : Fence
  | untagged : Fence
  deriving DecidableEq, Repr

/-- The opening fence line of each accepted tag. -/
def fenceOpen : Fence → List Char
  | .bash => fenceBash
  | .sh => fenceSh
  | .untagged => fenceBare

/-- A piece of a well-formed response: free text, or a fenced block with
an accepted tag and a body, closed by three backticks. -/
inductive Seg where
  | text : List Char → Seg
  | block : Fence → List Char → Seg
  deriving DecidableEq, Repr

/-- Rendering a response from its pieces. -/
def render : List Seg → List Char
  | [] => []
  | .text p :: rest => p ++ render rest
  | .block f b :: rest =>
    fenceOpen f ++ (b ++ (tick :: tick :: tick :: render rest))

/-- A piece is tame when it contains no backtick of its own. -/
def segNoTicks : Seg → Bool
  | .text p => p.all (fun c => c != tick)
  | .block _ b => b.all (fun c => c != tick)

/-- The block bodies of a response, in source order, duplicates kept. -/
def blockBodies : List Seg → List (List Char)
  | [] => []
  | .text _ :: rest => blockBodies rest
  | .block _ b :: rest => b :: blockBodies rest

/-! ## Demonstration inputs shared by witnesses and counterexamples -/

/-- The filesystem used in counterexamples: only `/evil.sh` exists. -/
def presentEvil : AbsPath → Bool := fun p => p == [("evil.sh").toList]

/-- The always-succeeding write predicate. -/
def allPaths : AbsPath → Bool := fun _ => true

/-- A response whose extraction is `["ls"]`. -/
def rDemo1 : List Char := ("```bash\nls\n```").toList

/-- A response whose extraction is `["pwd"]`. -/
def rDemo2 : List Char := ("```bash\npwd\n```").toList

/-- The empty pending store. -/
def pendingEmpty : Pending := fun _ => none

/-- A store with one command pending for operator `0`. -/
def pendingOne : Pending := fun q => if q == 0 then some (("ls").toList) else none

/-- An outcome in which the process could not be started. -/
def oFail : RawOutcome :=
  { stdout := [], stderr := [], timedOut := false, status := .startFailure }

/-- The job the C8 scenario's first `Add` creates. -/
def jobBackup (now : Nat) : CronJob :=
  { id := "backup", spec := "@daily", command := "echo hi",
    label := "Daily Backup", created := now, lastRun := 0 }

/-- A cron-spec validator accepting exactly `@daily` (the third-party
parser's verdict is a parameter; `@daily` is a spec it accepts). -/
def dailyOK : String → Bool := fun s => s == "@daily"

/-- The job table used to witness the persistence round-trip. -/
def jobsDemo : JobTable :=
  [("backup", { id := "backup", spec := "@daily", command := "echo hi",
                label := "Daily Backup", created := 5, lastRun := 9 })]

/-- The pieces of the extraction witness's response: a `bash` block, free
text, an `sh` block, a whitespace-only untagged block (discarded). -/
def segsDemo : List Seg :=
  [.block .bash (("ls -la\n").toList), .text (("\nsome prose\n").toList),
   .block .sh (("pwd\n").toList), .block .untagged (("  \n").toList)]

/-- The bytes of `"30s"`, a rendered timeout duration. -/
def tsDemo : List Nat := [51, 48, 115]

/-- A non-timeout outcome whose stdout (4 bytes) exceeds a 2-byte cap. -/
def oTrunc : RawOutcome :=
  { stdout := [97, 97, 97, 97], stderr := [98], timedOut := false, status := .exited 0 }

/-- A timed-out outcome whose stdout (3 bytes) exceeds a 1-byte cap. -/
def oLate : RawOutcome :=
  { stdout := [97, 97, 97], stderr := [], timedOut := true, status := .ok }

/-- The outcome of `bash -c "exit 7"`: no output, exit status 7. -/
def oExit7 : RawOutcome :=
  { stdout := [], stderr := [], timedOut := false, status := .exited 7 }

/-- The outcome of a process terminated by a signal (e.g. an external
`kill -9`) before the deadline: `ExitCode()` reports `-1`. -/
def oKilled : RawOutcome :=
  { stdout := [], stderr := [], timedOut := false, status := .signaled }

/-- The result `Run` is claimed (and proved) to produce for `oExit7`. -/
def rExit7 : ExecResult :=
  { stdout := [], stderr := [], exitCode := 7, truncated := false }

/-! ## Claims C2, C3, C4 — the `Run` post-processing -/

/-- Claim C2, counterexample: the claim demands the cap on every outcome
*including timeout*, but the timeout branch of `Run` returns before the
truncation code runs.  With cap 1 and a timed-out outcome whose stdout
holds 3 bytes, the result carries the full 3-byte stream — not the
claimed 1 byte plus marker — and `truncated` is `false` although a
stream longer than the cap was returned. -/
theorem run_timeout_cap_cex :
    Run 1 tsDemo oLate
      = some { stdout := [97, 97, 97], stderr := timeoutNote tsDemo,
               exitCode := -1, truncated := false }
    ∧ ([97, 97, 97] : List Nat).length > 1
    ∧ [97, 97, 97] ≠ ([97, 97, 97] : List Nat).take 1 ++ truncMarker := by
  refine ⟨by decide, by decide, by decide⟩

/-- Claim C2 (amended): the byte-cap contract holds for every outcome
*except timeout*: when the deadline did not expire, each stream longer
than `maxB` is returned as its first `maxB` bytes plus the truncation
marker, a stream at or below the cap is returned byte-identical, the
`truncated` flag is set iff at least one stream was cut, and each
returned stream is at most `maxB` plus the marker's length.  On timeout
the streams are returned uncapped (stderr with the timeout note
appended) and `truncated` is `false` regardless of length. -/
theorem run_output_cap (maxB : Nat) (ts : List Nat) (o : RawOutcome) (r : ExecResult)
    (h : Run maxB ts o = some r) (ht : o.timedOut = false) :
    (r.stdout = if maxB < o.stdout.length then o.stdout.take maxB ++ truncMarker else o.stdout)
    ∧ (r.stderr = if maxB < o.stderr.length then o.stderr.take maxB ++ truncMarker else o.stderr)
    ∧ r.truncated = (decide (maxB < o.stdout.length) || decide (maxB < o.stderr.length))
    ∧ r.stdout.length ≤ maxB + truncMarker.length
    ∧ r.stderr.length ≤ maxB + truncMarker.length
    ∧ Run maxB ts { o with timedOut := true }
        = some { stdout := o.stdout, stderr := o.stderr ++ timeoutNote ts,
                 exitCode := -1, truncated := false } := by
  have hmark : truncMarker.length = 16 := rfl
  have hcap : ∀ s : List Nat,
      (capStream maxB s).1
        = (if maxB < s.length then s.take maxB ++ truncMarker else s)
      ∧ (capStream maxB s).2 = decide (maxB < s.length)
      ∧ (capStream maxB s).1.length ≤ maxB + truncMarker.length := by
    intro s
    unfold capStream
    by_cases hs : maxB < s.length
    · rw [if_pos hs, if_pos hs]
      refine ⟨rfl, by simp [hs], ?_⟩
      simp only [List.length_append, List.length_take]
      omega
    · rw [if_neg hs, if_neg hs]
      refine ⟨rfl, by simp [hs], ?_⟩
      simp only [List.length_nil]
      omega
  unfold Run at h
  rw [if_neg (by simp [ht])] at h
  have htrue : Run maxB ts { o with timedOut := true }
      = some { stdout := o.stdout, stderr := o.stderr ++ timeoutNote ts,
               exitCode := -1, truncated := false } := by
    unfold Run; simp
  cases hst : o.status with
  | startFailure => rw [hst] at h; exact absurd h (by simp)
  | ok =>
    rw [hst] at h
    simp only [Option.some.injEq] at h
    subst h
    exact ⟨(hcap o.stdout).1, (hcap o.stderr).1,
      by rw [(hcap o.stdout).2.1, (hcap o.stderr).2.1],
      (hcap o.stdout).2.2, (hcap o.stderr).2.2, htrue⟩
  | exited c =>
    rw [hst] at h
    simp only [Option.some.injEq] at h
    subst h
    exact ⟨(hcap o.stdout).1, (hcap o.stderr).1,
      by rw [(hcap o.stdout).2.1, (hcap o.stderr).2.1],
      (hcap o.stdout).2.2, (hcap o.stderr).2.2, htrue⟩
  | signaled =>
    rw [hst] at h
    simp only [Option.some.injEq] at h
    subst h
    exact ⟨(hcap o.stdout).1, (hcap o.stderr).1,
      by rw [(hcap o.stdout).2.1, (hcap o.stderr).2.1],
      (hcap o.stdout).2.2, (hcap o.stderr).2.2, htrue⟩

/-- Witness for `run_output_cap`: cap 2, outcome `oTrunc` (4-byte stdout,
1-byte stderr, exit 0): stdout comes back as its first 2 bytes plus the
marker, stderr byte-identical, `truncated = true`. -/
theorem run_output_cap_wit :
    Run 2 tsDemo oTrunc
      = some { stdout := [97, 97] ++ truncMarker, stderr := [98],
               exitCode := 0, truncated := true }
    ∧ oTrunc.timedOut = false
    ∧ (([97, 97] ++ truncMarker : List Nat)
         = if 2 < oTrunc.stdout.length then oTrunc.stdout.take 2 ++ truncMarker
           else oTrunc.stdout) := by
  have h : Run 2 tsDemo oTrunc
      = some { stdout := [97, 97] ++ truncMarker, stderr := [98],
               exitCode := 0, truncated := true } := by decide
  exact ⟨h, rfl, (run_output_cap 2 tsDemo oTrunc _ h rfl).1⟩

/-- Claim C3, counterexample: the sentinel is not exclusive to timeout.
A process terminated by a signal without having exited — no deadline
expiry — is reported by `exec.ExitError.ExitCode()` as `-1`, which
`executor.go:70` passes through unchanged, so `Run` returns the sentinel
exit code although the wall-clock runtime never exceeded the timeout. -/
theorem run_signal_sentinel_cex :
    Run 4000 tsDemo oKilled
      = some { stdout := [], stderr := [], exitCode := -1, truncated := false }
    ∧ oKilled.timedOut = false := by
  refine ⟨by decide, by decide⟩

/-- Claim C3 (amended): whenever the deadline expired the exit code is
the sentinel `-1`, but the converse fails: the result's exit code is
`-1` iff the deadline expired *or* the process was terminated by a
signal without having exited (whose `ExitCode()` is `-1`, forwarded
unchanged).  Real 0–255 exit statuses are returned unchanged when there
was no timeout, and in particular the outcome of `Run("exit 7")` —
empty streams, exit status 7 — yields exit code 7, empty stdout/stderr
and `truncated = false` for every configured cap. -/
theorem run_exit_code_sentinel (maxB : Nat) (ts : List Nat) (o : RawOutcome)
    (r : ExecResult) (h : Run maxB ts o = some r) :
    (o.timedOut = true → r.exitCode = -1)
    ∧ (r.exitCode = -1 ↔ (o.timedOut = true ∨ o.status = .signaled))
    ∧ (∀ c : Nat, o.status = .exited c → o.timedOut = false → r.exitCode = (c : Int))
    ∧ Run maxB ts oExit7 = some rExit7 := by
  have hscen : Run maxB ts oExit7 = some rExit7 := by
    unfold Run oExit7 capStream rExit7; simp
  unfold Run at h
  by_cases htime : o.timedOut = true
  · rw [if_pos htime] at h
    simp only [Option.some.injEq] at h
    subst h
    refine ⟨fun _ => rfl, ⟨fun _ => Or.inl htime, fun _ => rfl⟩, ?_, hscen⟩
    intro c _ hf
    rw [htime] at hf
    exact absurd hf (by simp)
  · rw [if_neg htime] at h
    cases hst : o.status with
    | startFailure => rw [hst] at h; exact absurd h (by simp)
    | ok =>
      rw [hst] at h
      simp only [Option.some.injEq] at h
      subst h
      refine ⟨fun ht => absurd ht htime, ?_, ?_, hscen⟩
      · constructor
        · intro hcc
          exact absurd (show (0 : Int) = -1 from hcc) (by omega)
        · intro hor
          rcases hor with ht | hsig
          · exact absurd ht htime
          · exact absurd hsig (by simp)
      · intro c hc
        exact absurd hc (by simp)
    | exited c =>
      rw [hst] at h
      simp only [Option.some.injEq] at h
      subst h
      refine ⟨fun ht => absurd ht htime, ?_, ?_, hscen⟩
      · constructor
        · intro hcc
          exact absurd (show (c : Int) = -1 from hcc) (by omega)
        · intro hor
          rcases hor with ht | hsig
          · exact absurd ht htime
          · exact absurd hsig (by simp)
      · intro c2 hc _
        cases hc
        rfl
    | signaled =>
      rw [hst] at h
      simp only [Option.some.injEq] at h
      subst h
      refine ⟨fun ht => absurd ht htime, ⟨fun _ => Or.inr rfl, fun _ => rfl⟩,
        ?_, hscen⟩
      intro c hc
      exact absurd hc (by simp)

/-- Witness for `run_exit_code_sentinel` at the `exit 7` outcome with the
default 4000-byte cap: exit code 7, and not the sentinel. -/
theorem run_exit_code_sentinel_wit :
    Run 4000 tsDemo oExit7 = some rExit7
    ∧ (rExit7.exitCode = -1 ↔ (oExit7.timedOut = true ∨ oExit7.status = .signaled)) := by
  have h : Run 4000 tsDemo oExit7 = some rExit7 := by decide
  exact ⟨h, (run_exit_code_sentinel 4000 tsDemo oExit7 rExit7 h).2.1⟩

/-! ## Path lemmas -/

/-- `strings.Split` never returns an empty list. -/
theorem splitOnSlash_ne_nil (s : List Char) : splitOnSlash s ≠ [] := by
  cases s with
  | nil => simp [splitOnSlash]
  | cons c rest =>
    unfold splitOnSlash
    split <;> simp

/-- No segment produced by the splitter contains the separator. -/
theorem splitOnSlash_no_sep :
    ∀ (s : List Char), ∀ seg ∈ splitOnSlash s, '/' ∉ seg := by
  intro s
  induction s with
  | nil =>
    intro seg h
    simp only [splitOnSlash, List.mem_singleton] at h
    subst h; simp
  | cons c rest ih =>
    intro seg h
    unfold splitOnSlash at h
    by_cases hc : (c == '/') = true
    · rw [if_pos hc] at h
      rcases List.mem_cons.mp h with h1 | h2
      · subst h1; simp
      · exact ih seg h2
    · rw [if_neg hc] at h
      rcases List.mem_cons.mp h with h1 | h2
      · subst h1
        intro hmem
        rcases List.mem_cons.mp hmem with h3 | h4
        · exact hc (by rw [← h3]; simp)
        · cases hr : splitOnSlash rest with
          | nil => exact splitOnSlash_ne_nil rest hr
          | cons a as =>
            rw [hr] at h4
            exact ih a (by rw [hr]; exact List.mem_cons_self a as) h4
      · exact ih seg (List.mem_of_mem_tail h2)

/-- A separator-free string splits into itself alone. -/
theorem splitOnSlash_plain (s : List Char) (h : ∀ c ∈ s, c ≠ '/') :
    splitOnSlash s = [s] := by
  induction s with
  | nil => rfl
  | cons c rest ih =>
    unfold splitOnSlash
    rw [if_neg (by simp [h c (List.mem_cons_self c rest)]),
        ih (fun x hx => h x (List.mem_cons_of_mem c hx))]
    rfl

/-- A non-empty separator-free string has itself as its only component. -/
theorem pathComps_plain (s : List Char) (hne : s ≠ []) (h : ∀ c ∈ s, c ≠ '/') :
    pathComps s = [s] := by
  unfold pathComps
  rw [splitOnSlash_plain s h]
  simp [hne]

/-- Pushing one ordinary component onto the clean stack. -/
theorem cleanInto_single (st : AbsPath) (seg : PathSeg)
    (h1 : seg ≠ ['.']) (h2 : seg ≠ ['.', '.']) :
    cleanInto st [seg] = st.reverse ++ [seg] := by
  unfold cleanInto
  rw [if_neg (by simp [h1]), if_neg (by simp [h2])]
  unfold cleanInto
  simp

/-- Joining a plain name (non-empty, no separator, not `.` or `..`)
to the workspace lands exactly one level below the workspace. -/
theorem goJoin_plain (ws : AbsPath) (s : List Char) (hne : s ≠ [])
    (hsep : ∀ c ∈ s, c ≠ '/') (h1 : s ≠ ['.']) (h2 : s ≠ ['.', '.']) :
    goJoin ws s = ws ++ [s] := by
  unfold goJoin
  rw [pathComps_plain s hne hsep, cleanInto_single ws.reverse s h1 h2,
      List.reverse_reverse]

/-- A list's optional last element, when present, is a member. -/
theorem mem_of_getLast_eq {α : Type} {l : List α} {a : α}
    (h : l.getLast? = some a) : a ∈ l := by
  have hm : a ∈ l.getLast? := h ▸ rfl
  obtain ⟨hne, heq⟩ := List.mem_getLast?_eq_getLast hm
  subst heq
  exact List.getLast_mem hne

/-- `filepath.Base` never returns the empty string. -/
theorem goBase_ne_nil (s : List Char) : goBase s ≠ [] := by
  unfold goBase
  cases hl : (pathComps s).getLast? with
  | none =>
    rw [Option.getD_none]
    split <;> simp
  | some seg =>
    rw [Option.getD_some]
    have hp := (List.mem_filter.mp (mem_of_getLast_eq hl)).2
    intro hseg
    rw [hseg] at hp
    simp at hp

/-- `filepath.Base`, unless it returns `"/"`, contains no separator. -/
theorem goBase_no_sep (s : List Char) (h : goBase s ≠ ['/']) :
    ∀ c ∈ goBase s, c ≠ '/' := by
  unfold goBase at h ⊢
  cases hl : (pathComps s).getLast? with
  | none =>
    rw [hl, Option.getD_none] at h
    rw [Option.getD_none]
    by_cases he : s.isEmpty = true
    · rw [if_pos he]
      intro c hc
      rcases List.mem_singleton.mp hc with h1
      subst h1; simp
    · rw [if_neg he] at h
      exact absurd rfl h
  | some seg =>
    rw [Option.getD_some]
    have hsub : seg ∈ splitOnSlash s :=
      (List.mem_filter.mp (mem_of_getLast_eq hl)).1
    intro c hc hcs
    exact splitOnSlash_no_sep s seg hsub (hcs ▸ hc)

/-! ## Claims C1, C5 — path confinement -/

/-- Claim C1, counterexample: `"../evil.sh"` contains both a separator
and a parent-directory component, yet `RunScript` does not reject it:
with workspace `/ws` it resolves to `/evil.sh`, outside the workspace,
and when that file exists `RunScript` proceeds to run it. -/
theorem runScript_traversal_cex :
    (("../evil.sh").toList.contains '/') = true
    ∧ pathComps (("../evil.sh").toList) = [['.', '.'], ("evil.sh").toList]
    ∧ RunScript presentEvil [['w', 's']] (("../evil.sh").toList)
        = some [("evil.sh").toList]
    ∧ List.isPrefixOf [['w', 's']] [("evil.sh").toList] = false := by
  refine ⟨by decide, by decide, by decide, by decide⟩

/-- Claim C1 (amended): `RunScript` resolves the filename by joining it
to the workspace root as given — no base-name resolution, no rejection
of separators or parent components — and fails exactly when the
resolved path does not exist; a plain filename (non-empty, separator
free, neither `.` nor `..`) does resolve directly inside the workspace
root. -/
theorem runScript_resolution (present : AbsPath → Bool) (ws : AbsPath)
    (fn : List Char) :
    (RunScript present ws fn = none ↔ present (goJoin ws fn) = false)
    ∧ (∀ p, RunScript present ws fn = some p → p = goJoin ws fn)
    ∧ (fn ≠ [] → (∀ c ∈ fn, c ≠ '/') → fn ≠ ['.'] → fn ≠ ['.', '.'] →
        RunScript present ws fn
          = if present (ws ++ [fn]) then some (ws ++ [fn]) else none) := by
  refine ⟨?_, ?_, ?_⟩
  · unfold RunScript
    cases hp : present (goJoin ws fn) <;> simp [hp]
  · intro p hp
    unfold RunScript at hp
    by_cases hpr : present (goJoin ws fn) = true
    · rw [if_pos hpr] at hp
      exact (Option.some.injEq _ _ ▸ hp).symm
    · rw [if_neg hpr] at hp
      exact absurd hp (by simp)
  · intro hne hsep h1 h2
    unfold RunScript
    rw [goJoin_plain ws fn hne hsep h1 h2]

/-- Witness for `runScript_resolution`: the plain filename `run.sh`
resolves to `ws/run.sh` inside the workspace. -/
theorem runScript_resolution_wit :
    RunScript allPaths [['w', 's']] (("run.sh").toList)
      = if allPaths ([['w', 's']] ++ [("run.sh").toList])
        then some ([['w', 's']] ++ [("run.sh").toList]) else none :=
  (runScript_resolution allPaths [['w', 's']] (("run.sh").toList)).2.2
    (by decide) (by decide) (by decide) (by decide)

/-- Claim C5, counterexample: a traversal filename handed to `SaveFile`
is not rejected with an error — it is silently sanitized: with workspace
`/ws`, `SaveFile("../secret")` succeeds and writes `/ws/secret`, a
different path inside the workspace. -/
theorem saveFile_sanitize_cex :
    (("../secret").toList.contains '/') = true
    ∧ SaveFile allPaths [['w', 's']] (("../secret").toList)
        = some [['w', 's'], ("secret").toList]
    ∧ List.isPrefixOf [['w', 's']] [['w', 's'], ("secret").toList] = true := by
  refine ⟨by decide, by decide, by decide⟩

/-- Claim C5 (amended): the file operations resolve the filename to its
base name joined under the workspace root — a traversal attempt is
sanitized into the workspace, never rejected, and `SaveFile`'s only
error channel is the write itself.  Whenever the base name is an
ordinary component (not `..`, `/` or `.`), the resolved path is exactly
the workspace root extended by that base name, hence inside the
workspace.  (Script execution is *not* confined this way; see the
claim C1 theorems.) -/
theorem workspace_base_resolution (ws : AbsPath) (fn : List Char)
    (h1 : goBase fn ≠ ['.', '.']) (h2 : goBase fn ≠ ['/']) (h3 : goBase fn ≠ ['.']) :
    ReadFilePath ws fn = ws ++ [goBase fn]
    ∧ DeleteFilePath ws fn = ws ++ [goBase fn]
    ∧ (∀ w : AbsPath → Bool, SaveFile w ws fn
        = if w (ws ++ [goBase fn]) then some (ws ++ [goBase fn]) else none)
    ∧ List.isPrefixOf ws (ws ++ [goBase fn]) = true := by
  have hb := goJoin_plain ws (goBase fn) (goBase_ne_nil fn) (goBase_no_sep fn h2) h3 h1
  refine ⟨hb, hb, fun w => by unfold SaveFile; rw [hb], ?_⟩
  rw [ List.isPrefixOf_iff_prefix]
  exact List.prefix_append ws _

/-- Witness for `workspace_base_resolution` at the traversal filename
`"../secret"`, whose base name is `secret`. -/
theorem workspace_base_resolution_wit :
    ReadFilePath [['w', 's']] (("../secret").toList)
      = [['w', 's']] ++ [goBase (("../secret").toList)]
    ∧ List.isPrefixOf [['w', 's']]
        ([['w', 's']] ++ [goBase (("../secret").toList)]) = true :=
  ⟨(workspace_base_resolution [['w', 's']] (("../secret").toList)
      (by decide) (by decide) (by decide)).1,
   (workspace_base_resolution [['w', 's']] (("../secret").toList)
      (by decide) (by decide) (by decide)).2.2.2⟩

/-- Claim C4: `Run` returns through the error channel exactly when the
process could not be started (and the deadline had not already expired,
in which case the timeout result wins); success, nonzero exit and
timeout are all non-error returns carrying the outcome in the result. -/
theorem run_error_only_spawn (maxB : Nat) (ts : List Nat) (o : RawOutcome) :
    Run maxB ts o = none ↔ o.timedOut = false ∧ o.status = .startFailure := by
  unfold Run
  by_cases htime : o.timedOut
  · simp [htime]
  · simp only [htime, Bool.false_eq_true, if_false]
    cases o.status <;> simp

/-! ## Claims C7, C10 — the confirmation gate -/

/-- What a non-empty extraction does to the store in safe mode:
store the joined commands under the operator, untouched elsewhere. -/
theorem handleChat_store (pending : Pending) (op : Int) (response : List Char)
    (h : ExtractBashCommands response ≠ []) :
    handleChat false pending op response
      = fun q => if q == op then some (joinCmds (ExtractBashCommands response))
                 else pending q := by
  unfold handleChat
  rw [if_neg (by simp [h]), if_neg (by simp)]

/-- Claim C7: the pending store holds at most one entry per operator and
a fresh suggestion overwrites an unresolved one: after two suggestions
for the same operator with no intervening accept/reject, the operator's
slot holds exactly the second suggestion's commands, accept retrieves
exactly those, other operators' slots are untouched, and (when the two
differ) the first suggestion is no longer retrievable. -/
theorem pending_overwrite (pending : Pending) (op : Int) (r1 r2 : List Char)
    (maxB : Nat) (ts : List Nat) (o : RawOutcome)
    (h1 : ExtractBashCommands r1 ≠ []) (h2 : ExtractBashCommands r2 ≠ []) :
    (handleChat false (handleChat false pending op r1) op r2) op
      = some (joinCmds (ExtractBashCommands r2))
    ∧ (∀ q, q ≠ op →
        (handleChat false (handleChat false pending op r1) op r2) q = pending q)
    ∧ (handleConfirm (handleChat false (handleChat false pending op r1) op r2)
         op maxB ts o).2
      = some (joinCmds (ExtractBashCommands r2), Run maxB ts o)
    ∧ (joinCmds (ExtractBashCommands r2) ≠ joinCmds (ExtractBashCommands r1) →
        (handleChat false (handleChat false pending op r1) op r2) op
          ≠ some (joinCmds (ExtractBashCommands r1))) := by
  rw [handleChat_store _ _ _ h1, handleChat_store _ _ _ h2]
  refine ⟨by simp, ?_, ?_, ?_⟩
  · intro q hq
    simp [hq]
  · unfold handleConfirm
    simp
  · intro hne
    simp [hne]

/-- Witness for `pending_overwrite`: suggestions `ls` then `pwd` for
operator `0`; the slot holds `pwd` and no longer `ls`. -/
theorem pending_overwrite_wit :
    (handleChat false (handleChat false pendingEmpty 0 rDemo1) 0 rDemo2) 0
      = some (joinCmds (ExtractBashCommands rDemo2))
    ∧ (handleChat false (handleChat false pendingEmpty 0 rDemo1) 0 rDemo2) 0
      ≠ some (joinCmds (ExtractBashCommands rDemo1)) :=
  ⟨(pending_overwrite pendingEmpty 0 rDemo1 rDemo2 4000 tsDemo oExit7
      (by decide) (by decide)).1,
   (pending_overwrite pendingEmpty 0 rDemo1 rDemo2 4000 tsDemo oExit7
      (by decide) (by decide)).2.2.2 (by decide)⟩

/-- Claim C10: accept consumes the pending command exactly once.  The
entry is deleted before the executor is invoked — the resulting store
does not depend on the execution's outcome `o`, which may in particular
be a spawn failure — other operators are untouched, and an immediately
repeated accept (for any further outcome `o2`) finds nothing pending,
changes nothing and executes nothing. -/
theorem confirm_consumes_once (pending : Pending) (op : Int) (cmd : List Char)
    (maxB : Nat) (ts : List Nat) (o o2 : RawOutcome)
    (h : pending op = some cmd) :
    (handleConfirm pending op maxB ts o).1 op = none
    ∧ (handleConfirm pending op maxB ts o).2 = some (cmd, Run maxB ts o)
    ∧ (∀ q, q ≠ op → (handleConfirm pending op maxB ts o).1 q = pending q)
    ∧ handleConfirm (handleConfirm pending op maxB ts o).1 op maxB ts o2
        = ((handleConfirm pending op maxB ts o).1, none) := by
  unfold handleConfirm
  rw [h]
  refine ⟨by simp, rfl, ?_, by simp⟩
  intro q hq
  simp [hq]

/-- Witness for `confirm_consumes_once`: operator `0` accepts pending
`ls`; the executor's spawn then fails, yet the entry stays consumed —
and the failure is visible only through the executed pair's `Run`
result, which is `none` here. -/
theorem confirm_consumes_once_wit :
    (handleConfirm pendingOne 0 4000 tsDemo oFail).1 0 = none
    ∧ (handleConfirm pendingOne 0 4000 tsDemo oFail).2
        = some ((("ls").toList), Run 4000 tsDemo oFail)
    ∧ Run 4000 tsDemo oFail = none :=
  ⟨(confirm_consumes_once pendingOne 0 (("ls").toList) 4000 tsDemo oFail oExit7
      (by decide)).1,
   (confirm_consumes_once pendingOne 0 (("ls").toList) 4000 tsDemo oFail oExit7
      (by decide)).2.1,
   by decide⟩

/-! ## Claims C8, C9 — the scheduler -/

/-- Claim C8: `Add` fails with a duplicate-id error on a present id and
with an invalid-spec error on an unparsable spec, in both cases leaving
the job table (hence the original job's fields) unchanged; `Remove`
fails with not-found on an absent id; and the scenario holds: from the
empty table, `Add("backup","@daily","echo hi","Daily Backup")`
succeeds, a second identical `Add` fails with the duplicate-id error,
`Remove("backup")` then succeeds, and a second `Remove("backup")` fails
with not-found. -/
theorem scheduler_add_remove (specOK : String → Bool) (jobs : JobTable)
    (now : Nat) (id spec command label : String) :
    ((jobs.lookup id).isSome = true →
      SchedulerAdd specOK jobs now id spec command label
        = (some (.duplicate id), jobs))
    ∧ ((jobs.lookup id).isSome = false → specOK spec = false →
      SchedulerAdd specOK jobs now id spec command label
        = (some (.invalidSpec spec), jobs))
    ∧ ((jobs.lookup id).isSome = false →
      SchedulerRemove jobs id = (some (.notFound id), jobs))
    ∧ (specOK "@daily" = true →
      SchedulerAdd specOK [] now "backup" "@daily" "echo hi" "Daily Backup"
        = (none, [("backup", jobBackup now)])
      ∧ SchedulerAdd specOK [("backup", jobBackup now)] now
          "backup" "@daily" "echo hi" "Daily Backup"
        = (some (.duplicate "backup"), [("backup", jobBackup now)])
      ∧ SchedulerRemove [("backup", jobBackup now)] "backup" = (none, [])
      ∧ SchedulerRemove ([] : JobTable) "backup"
        = (some (.notFound "backup"), [])) := by
  refine ⟨?_, ?_, ?_, ?_⟩
  · intro hdup
    unfold SchedulerAdd
    rw [if_pos hdup]
  · intro habs hbad
    unfold SchedulerAdd
    rw [if_neg (by simp [habs]), if_neg (by simp [hbad])]
  · intro habs
    unfold SchedulerRemove
    rw [if_neg (by simp [habs])]
  · intro hd
    refine ⟨?_, ?_, ?_, ?_⟩
    · unfold SchedulerAdd
      rw [if_neg (by simp), if_pos hd]
      rfl
    · unfold SchedulerAdd
      rw [if_pos (by simp [List.lookup])]
    · unfold SchedulerRemove
      rw [if_pos (by simp [List.lookup])]
      simp [jobBackup]
    · unfold SchedulerRemove
      rw [if_neg (by simp)]

/-- Witness for `scheduler_add_remove`: the invalid-spec rejection on an
empty table and the scenario's first `Add`, both under `dailyOK`. -/
theorem scheduler_add_remove_wit :
    SchedulerAdd dailyOK [] 0 "x" "bad" "c" "l" = (some (.invalidSpec "bad"), [])
    ∧ SchedulerAdd dailyOK [] 0 "backup" "@daily" "echo hi" "Daily Backup"
        = (none, [("backup", jobBackup 0)]) :=
  ⟨(scheduler_add_remove dailyOK [] 0 "x" "bad" "c" "l").2.1 (by decide) (by decide),
   ((scheduler_add_remove dailyOK [] 0 "x" "bad" "c" "l").2.2.2 (by decide)).1⟩

/-- Claim C9: serializing the job table and reloading it reconstructs
every job — id, spec, command, label, created and last-run values —
unchanged, provided the table is well-keyed (each entry's key is its
job's id, which `Add` guarantees) and every stored spec still parses
(which `Add` also guarantees, having registered each spec once). -/
theorem persist_load_roundtrip (specOK : String → Bool) (jobs : JobTable)
    (hkey : ∀ p ∈ jobs, p.1 = p.2.id)
    (hspec : ∀ p ∈ jobs, specOK p.2.spec = true) :
    SchedulerLoad specOK (SchedulerPersist jobs) = jobs := by
  unfold SchedulerPersist SchedulerLoad
  have main : ∀ (l : JobTable), (∀ p ∈ l, p.1 = p.2.id) →
      (∀ p ∈ l, specOK p.2.spec = true) → ∀ acc : JobTable,
      (l.map (fun p => (p.1, encodeJob p.2))).foldl (loadStep specOK) acc
        = acc ++ l := by
    intro l
    induction l with
    | nil => intro _ _ acc; simp
    | cons hd tl ih =>
      intro hk hs acc
      simp only [List.map_cons, List.foldl_cons]
      have hstep : loadStep specOK acc (hd.1, encodeJob hd.2)
          = acc ++ [(hd.2.id, hd.2)] := by
        unfold loadStep
        have hdec : decodeJob (encodeJob hd.2) = some hd.2 := rfl
        rw [hdec]
        show (if specOK hd.2.spec = true then acc ++ [(hd.2.id, hd.2)] else acc)
          = acc ++ [(hd.2.id, hd.2)]
        rw [if_pos (hs hd (List.mem_cons_self hd tl))]
      rw [hstep, ← hk hd (List.mem_cons_self hd tl)]
      have hpair : ((hd.1, hd.2) : String × CronJob) = hd := rfl
      rw [hpair, ih (fun p hp => hk p (List.mem_cons_of_mem hd hp))
            (fun p hp => hs p (List.mem_cons_of_mem hd hp))]
      simp
  simpa using main jobs hkey hspec []

/-- Witness for `persist_load_roundtrip` on a single-job table carrying a
nonzero last-run value. -/
theorem persist_load_roundtrip_wit :
    SchedulerLoad dailyOK (SchedulerPersist jobsDemo) = jobsDemo :=
  persist_load_roundtrip dailyOK jobsDemo (by decide) (by decide)

/-! ## Claim C6 — command extraction

Lemmas replaying the regex scan symbolically, then the extraction
theorems. -/

/-- No match can start on the empty text. -/
theorem tryMatchAt_nil : tryMatchAt [] = none := rfl

/-- No match can start on a character other than a backtick. -/
theorem tryMatchAt_no_tick (c : Char) (t : List Char) (h : c ≠ tick) :
    tryMatchAt (c :: t) = none := by
  have hb : (tick == c) = false := beq_eq_false_iff_ne.mpr (fun he => h he.symm)
  unfold tryMatchAt fenceBash fenceSh fenceBare
  simp [List.isPrefixOf, hb]

/-- A list is a prefix of itself followed by anything. -/
theorem isPrefixOf_append_self (l t : List Char) : l.isPrefixOf (l ++ t) = true := by
  rw [ List.isPrefixOf_iff_prefix]
  exact List.prefix_append l t

/-- A match attempt just past an opening fence is the search for the
closing fence. -/
theorem tryMatchAt_fence (f : Fence) (x : List Char) :
    tryMatchAt (fenceOpen f ++ x) = findClose x := by
  have e1 : ('b' == 's') = false := by decide
  have e2 : ('b' == '\n') = false := by decide
  have e3 : ('s' == '\n') = false := by decide
  cases f with
  | bash =>
    show tryMatchAt (fenceBash ++ x) = findClose x
    unfold tryMatchAt
    rw [if_pos (isPrefixOf_append_self fenceBash x),
        show (fenceBash ++ x).drop 8 = x from by
          rw [show (8 : Nat) = fenceBash.length from rfl]
          exact List.drop_left _ _]
  | sh =>
    show tryMatchAt (fenceSh ++ x) = findClose x
    have hn1 : fenceBash.isPrefixOf (fenceSh ++ x) = false := by
      simp [fenceBash, fenceSh, List.isPrefixOf, e1]
    unfold tryMatchAt
    rw [if_neg (by simp [hn1]), if_pos (isPrefixOf_append_self fenceSh x),
        show (fenceSh ++ x).drop 6 = x from by
          rw [show (6 : Nat) = fenceSh.length from rfl]
          exact List.drop_left _ _]
  | untagged =>
    show tryMatchAt (fenceBare ++ x) = findClose x
    have hn1 : fenceBash.isPrefixOf (fenceBare ++ x) = false := by
      simp [fenceBash, fenceBare, List.isPrefixOf, e2]
    have hn2 : fenceSh.isPrefixOf (fenceBare ++ x) = false := by
      simp [fenceSh, fenceBare, List.isPrefixOf, e3]
    unfold tryMatchAt
    rw [if_neg (by simp [hn1]), if_neg (by simp [hn2]),
        if_pos (isPrefixOf_append_self fenceBare x),
        show (fenceBare ++ x).drop 4 = x from by
          rw [show (4 : Nat) = fenceBare.length from rfl]
          exact List.drop_left _ _]

/-- `startsCCC` really means three leading backticks. -/
theorem startsCCC_shape (s : List Char) (h : startsCCC s = true) :
    ∃ t, s = tick :: tick :: tick :: t := by
  match s, h with
  | c1 :: c2 :: c3 :: t, h =>
    unfold startsCCC at h
    simp only [Bool.and_eq_true, beq_iff_eq] at h
    obtain ⟨⟨h1, h2⟩, h3⟩ := h
    exact ⟨t, by rw [h1, h2, h3]⟩

/-- A text headed by anything but a backtick does not start a closing
fence. -/
theorem startsCCC_not_tick (c : Char) (y : List Char) (h : (c == tick) = false) :
    startsCCC (c :: y) = false := by
  unfold startsCCC
  cases y with
  | nil => rfl
  | cons a z =>
    cases z with
    | nil => rfl
    | cons b w => simp [h]

/-- A backtick-free prefix is skipped by the closing-fence search. -/
theorem findClose_append (body t : List Char) (hb : ∀ c ∈ body, c ≠ tick) :
    findClose (body ++ tick :: tick :: tick :: t) = some (body, t) := by
  induction body with
  | nil => rfl
  | cons c body ih =>
    have hc : c ≠ tick := hb c (List.mem_cons_self c body)
    have hcb : (c == tick) = false := beq_eq_false_iff_ne.mpr hc
    have hred : findClose (c :: (body ++ tick :: tick :: tick :: t))
        = if startsCCC (c :: (body ++ tick :: tick :: tick :: t)) = true
          then some ([], (body ++ tick :: tick :: tick :: t).drop 2)
          else match findClose (body ++ tick :: tick :: tick :: t) with
               | some pr => some (c :: pr.1, pr.2)
               | none => none := rfl
    rw [List.cons_append, hred,
        if_neg (by simp [startsCCC_not_tick c _ hcb]),
        ih (fun x hx => hb x (List.mem_cons_of_mem c hx))]

/-- A successful closing-fence search decomposes the text's length. -/
theorem findClose_shape (u : List Char) (pr : List Char × List Char)
    (h : findClose u = some pr) :
    u.length = pr.1.length + 3 + pr.2.length := by
  induction u generalizing pr with
  | nil => exact absurd h (by simp [findClose])
  | cons c rest ih =>
    unfold findClose at h
    by_cases hs : startsCCC (c :: rest) = true
    · rw [if_pos hs] at h
      obtain ⟨t, ht⟩ := startsCCC_shape _ hs
      have hrest : rest = tick :: tick :: t := (List.cons.injEq _ _ _ _ ▸ ht).2
      simp only [Option.some.injEq] at h
      subst h
      rw [hrest]
      simp
      omega
    · rw [if_neg hs] at h
      cases hfc : findClose rest with
      | none => rw [hfc] at h; exact absurd h (by simp)
      | some pr2 =>
        rw [hfc] at h
        simp only [Option.some.injEq] at h
        subst h
        have := ih pr2 hfc
        simp only [List.length_cons]
        omega

/-- A successful match attempt consumes at least one character past the
remainder it returns. -/
theorem tryMatchAt_length (s : List Char) (pr : List Char × List Char)
    (h : tryMatchAt s = some pr) : pr.2.length < s.length := by
  unfold tryMatchAt at h
  by_cases h1 : fenceBash.isPrefixOf s = true
  · rw [if_pos h1] at h
    have hle : 8 ≤ s.length := by
      have := ( List.isPrefixOf_iff_prefix.mp h1).length_le
      simpa using this
    have := findClose_shape _ _ h
    rw [List.length_drop] at this
    omega
  · rw [if_neg h1] at h
    by_cases h2 : fenceSh.isPrefixOf s = true
    · rw [if_pos h2] at h
      have hle : 6 ≤ s.length := by
        have := ( List.isPrefixOf_iff_prefix.mp h2).length_le
        simpa using this
      have := findClose_shape _ _ h
      rw [List.length_drop] at this
      omega
    · rw [if_neg h2] at h
      by_cases h3 : fenceBare.isPrefixOf s = true
      · rw [if_pos h3] at h
        have hle : 4 ≤ s.length := by
          have := ( List.isPrefixOf_iff_prefix.mp h3).length_le
          simpa using this
        have := findClose_shape _ _ h
        rw [List.length_drop] at this
        omega
      · rw [if_neg h3] at h
        exact absurd h (by simp)

/-- The scan result does not depend on the fuel, once sufficient. -/
theorem scanF_congr : ∀ (f1 f2 : Nat) (s : List Char),
    s.length ≤ f1 → s.length ≤ f2 → scanF f1 s = scanF f2 s := by
  intro f1
  induction f1 with
  | zero =>
    intro f2 s h1 _
    have : s = [] := List.eq_nil_of_length_eq_zero (Nat.le_zero.mp h1)
    subst this
    cases f2 <;> rfl
  | succ f1 ih =>
    intro f2 s h1 h2
    cases s with
    | nil => cases f2 <;> rfl
    | cons c rest =>
      cases f2 with
      | zero => simp at h2
      | succ f2 =>
        simp only [scanF]
        cases hm : tryMatchAt (c :: rest) with
        | none =>
          exact ih f2 rest (by simp at h1; omega) (by simp at h2; omega)
        | some pr =>
          have hlen := tryMatchAt_length _ _ hm
          simp only [List.length_cons] at h1 h2 hlen
          show pr.1 :: scanF f1 pr.2 = pr.1 :: scanF f2 pr.2
          rw [ih f2 pr.2 (by omega) (by omega)]

/-- A successful match attempt at the head of the text contributes its
capture and the scan continues after the match. -/
theorem scanText_step (s : List Char) (pr : List Char × List Char)
    (h : tryMatchAt s = some pr) :
    scanText s = pr.1 :: scanText pr.2 := by
  cases s with
  | nil => rw [tryMatchAt_nil] at h; exact absurd h (by simp)
  | cons c rest =>
    show scanF (rest.length + 1) (c :: rest) = _
    simp only [scanF]
    rw [h]
    have hlen := tryMatchAt_length _ _ h
    simp only [List.length_cons] at hlen
    show pr.1 :: scanF rest.length pr.2 = pr.1 :: scanText pr.2
    rw [scanF_congr rest.length pr.2.length pr.2 (by omega) (le_refl _)]
    rfl

/-- A non-backtick head character is skipped by the scan. -/
theorem scanText_skip_char (c : Char) (t : List Char) (h : c ≠ tick) :
    scanText (c :: t) = scanText t := by
  show scanF (t.length + 1) (c :: t) = scanText t
  simp only [scanF]
  rw [tryMatchAt_no_tick c t h]
  rfl

/-- A backtick-free prefix is skipped whole by the scan. -/
theorem scanText_skip (p t : List Char) (hp : ∀ c ∈ p, c ≠ tick) :
    scanText (p ++ t) = scanText t := by
  induction p with
  | nil => rfl
  | cons c p ih =>
    rw [List.cons_append,
        scanText_skip_char c (p ++ t) (hp c (List.mem_cons_self c p)),
        ih (fun x hx => hp x (List.mem_cons_of_mem c hx))]

/-- Tameness of a text piece, unpacked. -/
theorem segNoTicks_text {p : List Char} (h : segNoTicks (.text p) = true) :
    ∀ c ∈ p, c ≠ tick := by
  intro c hc
  have := List.all_eq_true.mp h c hc
  simpa using this

/-- Tameness of a block body, unpacked. -/
theorem segNoTicks_block {f : Fence} {b : List Char}
    (h : segNoTicks (.block f b) = true) : ∀ c ∈ b, c ≠ tick := by
  intro c hc
  have := List.all_eq_true.mp h c hc
  simpa using this

/-- Over a tame well-formed response the scan captures exactly the block
bodies, in source order. -/
theorem scanText_render (segs : List Seg) (h : ∀ sg ∈ segs, segNoTicks sg = true) :
    scanText (render segs) = blockBodies segs := by
  induction segs with
  | nil => rfl
  | cons sg rest ih =>
    have hrest : ∀ sg2 ∈ rest, segNoTicks sg2 = true :=
      fun sg2 hs => h sg2 (List.mem_cons_of_mem sg hs)
    cases sg with
    | text p =>
      show scanText (p ++ render rest) = blockBodies rest
      rw [scanText_skip p _ (segNoTicks_text (h _ (List.mem_cons_self _ _))),
          ih hrest]
    | block f b =>
      show scanText (fenceOpen f ++ (b ++ (tick :: tick :: tick :: render rest)))
        = b :: blockBodies rest
      have hm : tryMatchAt (fenceOpen f ++ (b ++ (tick :: tick :: tick :: render rest)))
          = some (b, render rest) := by
        rw [tryMatchAt_fence]
        exact findClose_append b (render rest)
          (segNoTicks_block (h _ (List.mem_cons_self _ _)))
      rw [scanText_step _ _ hm, ih hrest]

/-- Claim C6, counterexample: on a text holding exactly two well-formed
shell-tagged blocks (`ls`, `pwd`) and one `python`-tagged block between
them, extraction does *not* return the two shell blocks: the python
block's closing fence opens a spurious match which swallows the `sh`
fence, and only `ls` is returned.  Moreover a block with *no* tag at
all — not one of the two shell tags — is extracted, because the regex's
tag is optional. -/
theorem extract_commands_cex :
    ExtractBashCommands
        (("```bash\nls\n```\n```python\nprint(1)\n```\n```sh\npwd\n```").toList)
      = [("ls").toList]
    ∧ ExtractBashCommands
        (("```bash\nls\n```\n```python\nprint(1)\n```\n```sh\npwd\n```").toList)
      ≠ [("ls").toList, ("pwd").toList]
    ∧ ExtractBashCommands (("```\nuntagged\n```").toList) = [("untagged").toList] := by
  refine ⟨by decide, by decide, by decide⟩

/-- Claim C6 (amended): over any response built from backtick-free text
pieces and well-formed fenced blocks whose tags are all ones the
extractor accepts — `bash`, `sh`, or *no tag at all* (the tag is
optional, so untagged blocks count as shell) — extraction returns
exactly the non-whitespace-only block bodies, trimmed, in source order
with duplicates preserved.  (A block tagged with another language is
outside this shape; as the counterexample shows, it is not extracted
itself and can cause a following shell block to be skipped.) -/
theorem extract_shell_blocks (segs : List Seg)
    (h : ∀ sg ∈ segs, segNoTicks sg = true) :
    ExtractBashCommands (render segs)
      = ((blockBodies segs).map trimSpace).filter (fun c => !c.isEmpty) := by
  unfold ExtractBashCommands
  rw [scanText_render segs h]

/-- Witness for `extract_shell_blocks`: the demo response yields exactly
`ls -la` and `pwd`, in order, the whitespace-only block dropped. -/
theorem extract_shell_blocks_wit :
    ExtractBashCommands (render segsDemo)
      = ((blockBodies segsDemo).map trimSpace).filter (fun c => !c.isEmpty)
    ∧ ((blockBodies segsDemo).map trimSpace).filter (fun c => !c.isEmpty)
      = [("ls -la").toList, ("pwd").toList] :=
  ⟨extract_shell_blocks segsDemo (by decide), by decide⟩

end Miniclaw
